import Mathlib

/-!
# Verification of `eig_vec_cent` (src/centrality.py)

Shallow embedding of the eigenvector-centrality transform.  The Python
function receives a labelled covariance matrix whose cells may be missing
(NaN/null), gates on missingness, calls the external symmetric
eigendecomposition routine `np.linalg.eigh`, sorts the eigenpairs in
ascending order of eigenvalue, slices the last (`largest = true`) or first
`n_components` pairs, takes absolute values of the eigenvector entries,
normalises each eigenvector by its entry sum, weights by the eigenvalues,
and divides by the sum of the selected eigenvalues.

Modelling conventions:
* the scalar field is an arbitrary linear ordered field `K` (idealised
  exact arithmetic in place of IEEE doubles; division by zero yields the
  junk value `0` rather than NaN/inf);
* a matrix cell is `Option K` (`none` models NaN/null);
* the external routine `np.linalg.eigh` is a parameter
  `eigh : (Fin n → Fin n → K) → EigPairs K n`; the predicate
  `IsEighOutput` states what a correct symmetric eigendecomposition
  returns: `n` eigenpairs satisfying the eigen-equations, with unit-norm,
  pairwise-orthogonal eigenvectors;
* numpy's in-place `sort`/`argsort` pair on the eigenvalues, with the
  eigenvector columns permuted by the same permutation, is modelled by a
  stable merge sort of the (eigenvalue, eigenvector) pairs by eigenvalue;
* the Python slice `xs[-k:]` (for `k ≥ 0`) is `takeLast k xs`:
  the whole list when `k = 0` (since `-0 = 0`) or `k ≥ len`,
  otherwise the last `k` elements; `xs[:k]` is `List.take k xs`.
-/

namespace Centrality

/-- An eigenvector is a real vector of length `n`. -/
abbrev Vec (K : Type) (n : ℕ) := Fin n → K

/-- The output of the eigendecomposition: a list of
(eigenvalue, eigenvector) pairs, the eigenvector being a column of the
matrix returned by `np.linalg.eigh`. -/
abbrev EigPairs (K : Type) (n : ℕ) := List (K × Vec K n)

variable {K : Type} [LinearOrderedField K] {n : ℕ}

/-- `cov.isnull().values.any()` — does any cell of the matrix hold a
missing value? -/
def hasMissing (cov : Fin n → Fin n → Option K) : Bool :=
  decide (∃ i j, (cov i j).isNone = true)

/-- `cov.values` once the missing-value gate has passed: every cell is
defined, and we read its value (`getD 0` is never the default on the
computation path, since `eig_vec_cent` only reaches it when no cell is
`none`). -/
def covVal (cov : Fin n → Fin n → Option K) : Fin n → Fin n → K :=
  fun i j => (cov i j).getD 0

/-- The Python slice `xs[-k:]` for `k ≥ 0`: the whole list when `k = 0`
(because `-0 = 0` in Python, `xs[-0:]` is `xs[0:]`), otherwise the last
`min k xs.length` elements. -/
def takeLast (k : ℕ) (xs : List α) : List α :=
  if k = 0 then xs else xs.drop (xs.length - k)

/-- Lines 44-46 of the source: sort the eigenvalues ascending and permute
the eigenvector columns by the sorting permutation, keeping each
eigenvalue paired with its eigenvector. -/
def sortedPairs (pairs : EigPairs K n) : EigPairs K n :=
  pairs.mergeSort (fun p q => decide (p.1 ≤ q.1))

/-- `eig_vals` after the selection branch (lines 48-53): the last
(`largest`) or first `n_components` sorted eigenvalues. -/
def eigValsSel (pairs : EigPairs K n) (nc : ℕ) (largest : Bool) : List K :=
  if largest then takeLast nc ((sortedPairs pairs).map Prod.fst)
  else ((sortedPairs pairs).map Prod.fst).take nc

/-- `eig_vecs` after the selection branch (lines 48-53): the last
(`largest`) or first `n_components` sorted eigenvector columns, with the
absolute value applied to every entry. -/
def eigVecsSel (pairs : EigPairs K n) (nc : ℕ) (largest : Bool) : List (Vec K n) :=
  (if largest then takeLast nc ((sortedPairs pairs).map Prod.snd)
   else ((sortedPairs pairs).map Prod.snd).take nc).map (fun v j => |v j|)

/-- `np.sum(eig_vecs, axis=0)` for one column: the sum of the entries of
an (absolute-valued) eigenvector. -/
def colSum (v : Vec K n) : K := ∑ j, v j

/-- Line 55 of the source:
`np.sum(eig_vals * eig_vecs / np.sum(eig_vecs, axis=0), axis=1) / np.sum(eig_vals)`.
Entry `j` of the result is
`(Σ over selected components i of λᵢ·|vᵢ j| / colSum vᵢ) / (Σ selected λᵢ)`. -/
def scores (pairs : EigPairs K n) (nc : ℕ) (largest : Bool) : Vec K n :=
  fun j =>
    (((eigValsSel pairs nc largest).zip (eigVecsSel pairs nc largest)).map
      (fun pv => pv.1 * pv.2 j / colSum pv.2)).sum
    / (eigValsSel pairs nc largest).sum

/-- The whole function `eig_vec_cent`: gate on missing cells (lines
40-41, returning the `None` sentinel), then decompose, sort, select,
and normalise (lines 43-55).  The external decomposition routine
`np.linalg.eigh` is the parameter `eigh`. -/
def eig_vec_cent (eigh : (Fin n → Fin n → K) → EigPairs K n)
    (cov : Fin n → Fin n → Option K) (n_components : ℕ) (largest : Bool) :
    Option (Vec K n) :=
  if hasMissing cov then none
  else some (scores (eigh (covVal cov)) n_components largest)

/-- Dot product of two vectors. -/
def dotP (v w : Vec K n) : K := ∑ j, v j * w j

/-- What `np.linalg.eigh` guarantees about its output on a (symmetric)
`n × n` input: it returns all `n` eigenpairs, each satisfying the
eigen-equation `A v = λ v`, with unit-norm and pairwise orthogonal
eigenvectors. -/
def IsEighOutput (A : Fin n → Fin n → K) (pairs : EigPairs K n) : Prop :=
  pairs.length = n ∧
  (∀ p ∈ pairs, ∀ i, (∑ j, A i j * p.2 j) = p.1 * p.2 i) ∧
  (∀ p ∈ pairs, dotP p.2 p.2 = 1) ∧
  ∀ a b : Fin pairs.length, a ≠ b → dotP (pairs.get a).2 (pairs.get b).2 = 0

/-- The matrix is symmetric. -/
def IsSymmetric (A : Fin n → Fin n → K) : Prop := ∀ i j, A i j = A j i

/-- The matrix is positive semidefinite: every quadratic form value is
non-negative. -/
def IsPSD (A : Fin n → Fin n → K) : Prop :=
  ∀ x : Vec K n, 0 ≤ ∑ i, ∑ j, x i * A i j * x j

/-- The sorted-then-sliced eigenpair list: slicing the sorted eigenvalue
array and the sorted eigenvector matrix with one and the same slice
(lines 48-53) is slicing the list of sorted pairs. -/
def selPairs (pairs : EigPairs K n) (nc : ℕ) (largest : Bool) : EigPairs K n :=
  if largest then takeLast nc (sortedPairs pairs) else (sortedPairs pairs).take nc

/-- The input matrix with every cell multiplied by a scalar `c`. -/
def scaleCov (c : K) (cov : Fin n → Fin n → Option K) : Fin n → Fin n → Option K :=
  fun i j => (cov i j).map (fun x => c * x)

/-- The input matrix with rows and columns simultaneously relabelled by a
permutation of the asset identifiers. -/
def permCov (σ : Equiv.Perm (Fin n)) (cov : Fin n → Fin n → Option K) :
    Fin n → Fin n → Option K :=
  fun i j => cov (σ i) (σ j)

/-- A fully-defined diagonal covariance matrix with diagonal `d`. -/
def diagCov (d : Fin n → K) : Fin n → Fin n → Option K :=
  fun i j => some (if i = j then d i else 0)

/-! ### Concrete inputs used by witnesses and counterexamples -/

/-- Standard basis vector of `Fin 3 → ℚ`. -/
def e3 (k : Fin 3) : Vec ℚ 3 := fun j => if j = k then 1 else 0

/-- The eigendecomposition `np.linalg.eigh` returns on the 3×3 identity
matrix: eigenvalues `[1, 1, 1]`, eigenvectors the standard basis. -/
def idPairs3 : EigPairs ℚ 3 := [(1, e3 0), (1, e3 1), (1, e3 2)]

/-- The 3×3 identity matrix, all cells defined. -/
def covId3 : Fin 3 → Fin 3 → Option ℚ := fun i j => some (if i = j then 1 else 0)

/-- A fully-defined 1×1 matrix `[[a]]`. -/
def cov1 (a : ℚ) : Fin 1 → Fin 1 → Option ℚ := fun _ _ => some a

/-- The eigendecomposition of a 1×1 matrix `[[a]]`: eigenvalue `a`,
eigenvector `[1]`. -/
def pairs1 (a : ℚ) : EigPairs ℚ 1 := [(a, fun _ => 1)]

/-- A 1×1 matrix whose single cell is missing. -/
def covMiss1 : Fin 1 → Fin 1 → Option ℚ := fun _ _ => none

/-- Standard basis vector of `Fin 2 → ℚ`. -/
def e2 (k : Fin 2) : Vec ℚ 2 := fun j => if j = k then 1 else 0

/-- The diagonal `(1, 2)` of a 2×2 diagonal matrix. -/
def d2 : Fin 2 → ℚ := fun i => if i = 0 then 1 else 2

/-- The eigendecomposition of `diag(1, 2)`: eigenvalues `1, 2` with the
standard basis vectors. -/
def diagPairs2 : EigPairs ℚ 2 := [(1, e2 0), (2, e2 1)]

/-! ### Helper lemmas -/

theorem takeLast_map {α β : Type} (f : α → β) (k : ℕ) (l : List α) :
    takeLast k (l.map f) = (takeLast k l).map f := by
  unfold takeLast
  rcases Nat.eq_zero_or_pos k with hk | hk
  · simp [hk]
  · simp [Nat.pos_iff_ne_zero.mp hk, ← List.map_drop]

theorem takeLast_of_length_le {α : Type} {k : ℕ} {l : List α} (h : l.length ≤ k) :
    takeLast k l = l := by
  unfold takeLast
  rcases Nat.eq_zero_or_pos k with hk | hk
  · simp [hk]
  · simp [Nat.pos_iff_ne_zero.mp hk, Nat.sub_eq_zero_of_le h]

theorem takeLast_subset {α : Type} (k : ℕ) (l : List α) : takeLast k l ⊆ l := by
  unfold takeLast
  rcases Nat.eq_zero_or_pos k with hk | hk
  · simp [hk]
  · simp only [Nat.pos_iff_ne_zero.mp hk, if_false]
    exact List.drop_subset _ l

theorem selPairs_subset (pairs : EigPairs K n) (nc : ℕ) (b : Bool) :
    ∀ p ∈ selPairs pairs nc b, p ∈ pairs := by
  intro p hp
  have hmem : p ∈ sortedPairs pairs := by
    unfold selPairs at hp
    rcases b with _ | _
    · exact List.take_subset _ _ hp
    · exact takeLast_subset _ _ hp
  rw [sortedPairs] at hmem
  exact List.mem_mergeSort.mp hmem

theorem selPairs_length_le (pairs : EigPairs K n) (nc : ℕ) (b : Bool)
    (h : (sortedPairs pairs).length ≤ nc) : selPairs pairs nc b = sortedPairs pairs := by
  unfold selPairs
  rcases b with _ | _
  · simp [List.take_of_length_le h]
  · simp [takeLast_of_length_le h]

theorem eigValsSel_eq (pairs : EigPairs K n) (nc : ℕ) (b : Bool) :
    eigValsSel pairs nc b = (selPairs pairs nc b).map Prod.fst := by
  unfold eigValsSel selPairs
  rcases b with _ | _
  · simp [List.map_take]
  · simp [takeLast_map]

theorem eigVecsSel_eq (pairs : EigPairs K n) (nc : ℕ) (b : Bool) :
    eigVecsSel pairs nc b = (selPairs pairs nc b).map (fun p j => |p.2 j|) := by
  rcases b with _ | _
  · show (List.take nc ((sortedPairs pairs).map Prod.snd)).map (fun v j => |v j|)
        = (List.take nc (sortedPairs pairs)).map (fun p j => |p.2 j|)
    rw [← List.map_take, List.map_map]
    rfl
  · show (takeLast nc ((sortedPairs pairs).map Prod.snd)).map (fun v j => |v j|)
        = (takeLast nc (sortedPairs pairs)).map (fun p j => |p.2 j|)
    rw [takeLast_map, List.map_map]
    rfl

theorem scores_eq (pairs : EigPairs K n) (nc : ℕ) (b : Bool) (j : Fin n) :
    scores pairs nc b j =
      ((selPairs pairs nc b).map
        (fun p => p.1 * |p.2 j| / (∑ i, |p.2 i|))).sum /
      ((selPairs pairs nc b).map Prod.fst).sum := by
  unfold scores
  rw [eigValsSel_eq, eigVecsSel_eq, List.zip_map', List.map_map]
  rfl

theorem list_sum_fin_comm {β : Type} (l : List β) (f : β → Vec K n) :
    ∑ j, (l.map (fun p => f p j)).sum = (l.map (fun p => ∑ j, f p j)).sum := by
  induction l with
  | nil => simp
  | cons a t ih => simp [Finset.sum_add_distrib, ih]

theorem absSum_pos (v : Vec K n) (h : dotP v v = 1) : 0 < ∑ j, |v j| := by
  have hv : ∃ j, v j ≠ 0 := by
    by_contra hall
    push_neg at hall
    rw [dotP] at h
    simp [hall] at h
  obtain ⟨j, hj⟩ := hv
  exact Finset.sum_pos' (fun i _ => abs_nonneg _)
    ⟨j, Finset.mem_univ j, abs_pos.mpr hj⟩

theorem eigenvalue_nonneg {A : Fin n → Fin n → K} {pairs : EigPairs K n}
    (hpsd : IsPSD A) (heig : IsEighOutput A pairs) :
    ∀ p ∈ pairs, 0 ≤ p.1 := by
  intro p hp
  have hq := hpsd p.2
  have hcalc : ∑ i, ∑ j, p.2 i * A i j * p.2 j = p.1 := by
    calc ∑ i, ∑ j, p.2 i * A i j * p.2 j
        = ∑ i, p.2 i * ∑ j, A i j * p.2 j := by
          refine Finset.sum_congr rfl fun i _ => ?_
          rw [Finset.mul_sum]
          exact Finset.sum_congr rfl fun j _ => by ring
      _ = ∑ i, p.2 i * (p.1 * p.2 i) := by
          refine Finset.sum_congr rfl fun i _ => ?_
          rw [heig.2.1 p hp i]
      _ = p.1 * ∑ i, p.2 i * p.2 i := by
          rw [Finset.mul_sum]
          exact Finset.sum_congr rfl fun i _ => by ring
      _ = p.1 * dotP p.2 p.2 := rfl
      _ = p.1 := by rw [heig.2.2.1 p hp, mul_one]
  rw [hcalc] at hq
  exact hq

theorem fin_len_one_eq {k : ℕ} (hk : k = 1) (a b : Fin k) : a = b := by
  subst hk
  exact Subsingleton.elim a b

theorem isEigh_pairs1 (a : ℚ) : IsEighOutput (covVal (cov1 a)) (pairs1 a) := by
  refine ⟨rfl, ?_, ?_, ?_⟩
  · intro p hp i
    simp only [pairs1, List.mem_singleton] at hp
    subst hp
    simp [covVal, cov1, Fin.sum_univ_one]
  · intro p hp
    simp only [pairs1, List.mem_singleton] at hp
    subst hp
    simp [dotP, Fin.sum_univ_one]
  · intro u v huv
    exact absurd (fin_len_one_eq rfl u v) huv

theorem sum_scores_eq_one (pairs : EigPairs K n) (nc : ℕ) (b : Bool)
    (hnorm : ∀ p ∈ pairs, dotP p.2 p.2 = 1)
    (hT : (eigValsSel pairs nc b).sum ≠ 0) :
    ∑ j, scores pairs nc b j = 1 := by
  rw [eigValsSel_eq] at hT
  have hS : ∀ p ∈ selPairs pairs nc b, (0:K) < ∑ i, |p.2 i| :=
    fun p hp => absSum_pos p.2 (hnorm p (selPairs_subset pairs nc b p hp))
  have h1 : ∑ j, scores pairs nc b j
      = (∑ j, ((selPairs pairs nc b).map
          (fun p => p.1 * |p.2 j| / (∑ i, |p.2 i|))).sum) /
        ((selPairs pairs nc b).map Prod.fst).sum := by
    rw [Finset.sum_div]
    exact Finset.sum_congr rfl fun j _ => scores_eq pairs nc b j
  rw [h1, list_sum_fin_comm]
  have h2 : (selPairs pairs nc b).map (fun p => ∑ j, p.1 * |p.2 j| / (∑ i, |p.2 i|))
      = (selPairs pairs nc b).map Prod.fst := by
    apply List.map_congr_left
    intro p hp
    rw [← Finset.sum_div, ← Finset.mul_sum]
    exact mul_div_cancel_right₀ p.1 (ne_of_gt (hS p hp))
  rw [h2, div_self hT]

theorem eig_vec_cent_of_not_missing (eigh : (Fin n → Fin n → K) → EigPairs K n)
    (cov : Fin n → Fin n → Option K) (nc : ℕ) (b : Bool)
    (h : hasMissing cov = false) :
    eig_vec_cent eigh cov nc b = some (scores (eigh (covVal cov)) nc b) := by
  rw [eig_vec_cent, h]
  rfl

theorem scores_congr_selPairs {pairs qairs : EigPairs K n} {nc mc : ℕ} {b b' : Bool}
    (h : selPairs pairs nc b = selPairs qairs mc b') :
    scores pairs nc b = scores qairs mc b' := by
  funext j
  rw [scores_eq, scores_eq, h]

/-! ### Claim theorems -/

/-- Claim C2: for every input matrix, if any single cell is undefined
(NaN/null), `eig_vec_cent` returns the `None` sentinel — not an exception
and not a numeric vector — regardless of the matrix size, of
`n_components` and `largest`, and of the decomposition routine (no
decomposition is attempted: the result is `none` for every `eigh`). -/
theorem missing_cell_yields_none (eigh : (Fin n → Fin n → K) → EigPairs K n)
    (cov : Fin n → Fin n → Option K) (nc : ℕ) (b : Bool)
    (h : ∃ i j, cov i j = none) :
    eig_vec_cent eigh cov nc b = none := by
  have hm : hasMissing cov = true := by
    rw [hasMissing, decide_eq_true_iff]
    obtain ⟨i, j, hij⟩ := h
    exact ⟨i, j, by rw [hij]; rfl⟩
  rw [eig_vec_cent, hm]
  rfl

/-- Witness for C2, at the 1×1 matrix whose only cell is missing. -/
theorem missing_cell_yields_none_witness :
    (∃ i j, covMiss1 i j = none) ∧
    eig_vec_cent (fun _ => pairs1 0) covMiss1 3 true = none :=
  ⟨⟨0, 0, rfl⟩, missing_cell_yields_none _ _ _ _ ⟨0, 0, rfl⟩⟩

/-- Claim C9: for every symmetric `n × n` matrix with no missing entries
and every `n_components` strictly greater than `n`, `eig_vec_cent`
returns the same vector as with `n_components = n` (the slice degrades to
all components rather than failing). -/
theorem oversized_component_count_degrades
    (eigh : (Fin n → Fin n → K) → EigPairs K n)
    (cov : Fin n → Fin n → Option K) (nc : ℕ) (b : Bool)
    (hnc : n < nc)
    (hsym : IsSymmetric (covVal cov))
    (heig : IsEighOutput (covVal cov) (eigh (covVal cov))) :
    eig_vec_cent eigh cov nc b = eig_vec_cent eigh cov n b := by
  rw [eig_vec_cent, eig_vec_cent]
  have hlen : (sortedPairs (eigh (covVal cov))).length = n := by
    rw [sortedPairs, List.length_mergeSort, heig.1]
  have hsel : selPairs (eigh (covVal cov)) nc b = selPairs (eigh (covVal cov)) n b := by
    rw [selPairs_length_le _ _ _ (le_of_eq hlen),
      selPairs_length_le _ _ _ (le_of_lt (lt_of_le_of_lt (le_of_eq hlen) hnc))]
  rw [scores_congr_selPairs hsel]

/-- Witness for C9, at the 1×1 matrix `[[2]]` with `n_components = 2`. -/
theorem oversized_component_count_degrades_witness :
    (1 < 2) ∧ IsSymmetric (covVal (cov1 2)) ∧
    IsEighOutput (covVal (cov1 2)) (pairs1 2) ∧
    eig_vec_cent (fun _ => pairs1 2) (cov1 2) 2 true =
      eig_vec_cent (fun _ => pairs1 2) (cov1 2) 1 true := by
  have h1 : (1:ℕ) < 2 := by norm_num
  have h2 : IsSymmetric (covVal (cov1 2)) := fun i j => rfl
  have h3 := isEigh_pairs1 2
  exact ⟨h1, h2, h3, oversized_component_count_degrades _ _ _ _ h1 h2 h3⟩

/-- Claim C10: for every symmetric `n × n` matrix with no missing
entries, `n_components = n` with `largest = true` gives exactly the same
vector as `largest = false`: both slices cover the whole sorted eigenpair
list, so the flag is irrelevant at this boundary. -/
theorem full_component_count_flag_irrelevant
    (eigh : (Fin n → Fin n → K) → EigPairs K n)
    (cov : Fin n → Fin n → Option K)
    (hsym : IsSymmetric (covVal cov))
    (heig : IsEighOutput (covVal cov) (eigh (covVal cov))) :
    eig_vec_cent eigh cov n true = eig_vec_cent eigh cov n false := by
  rw [eig_vec_cent, eig_vec_cent]
  have hlen : (sortedPairs (eigh (covVal cov))).length = n := by
    rw [sortedPairs, List.length_mergeSort, heig.1]
  have hsel : selPairs (eigh (covVal cov)) n true = selPairs (eigh (covVal cov)) n false := by
    rw [selPairs_length_le _ _ _ (le_of_eq hlen), selPairs_length_le _ _ _ (le_of_eq hlen)]
  rw [scores_congr_selPairs hsel]

/-- Witness for C10, at the 1×1 matrix `[[2]]`. -/
theorem full_component_count_flag_irrelevant_witness :
    IsSymmetric (covVal (cov1 2)) ∧ IsEighOutput (covVal (cov1 2)) (pairs1 2) ∧
    eig_vec_cent (fun _ => pairs1 2) (cov1 2) 1 true =
      eig_vec_cent (fun _ => pairs1 2) (cov1 2) 1 false := by
  have h2 : IsSymmetric (covVal (cov1 2)) := fun i j => rfl
  have h3 := isEigh_pairs1 2
  exact ⟨h2, h3, full_component_count_flag_irrelevant _ _ h2 h3⟩

/-- Claim C1 (amended): for every symmetric matrix with no missing
entries and `1 ≤ n_components ≤ n`, PROVIDED the sum of the selected
eigenvalues is nonzero, the entries of the vector returned by
`eig_vec_cent` sum to 1.  (The original claim fails without the proviso:
when the selected eigenvalues sum to zero — e.g. the zero matrix — the
final division is degenerate and the output does not sum to 1; see the
counterexample.) -/
theorem sum_of_scores_eq_one
    (eigh : (Fin n → Fin n → K) → EigPairs K n)
    (cov : Fin n → Fin n → Option K) (nc : ℕ) (b : Bool)
    (hmiss : hasMissing cov = false)
    (hsym : IsSymmetric (covVal cov))
    (heig : IsEighOutput (covVal cov) (eigh (covVal cov)))
    (hnc1 : 1 ≤ nc) (hncn : nc ≤ n)
    (hT : (eigValsSel (eigh (covVal cov)) nc b).sum ≠ 0) :
    ∃ v, eig_vec_cent eigh cov nc b = some v ∧ ∑ j, v j = 1 :=
  ⟨scores (eigh (covVal cov)) nc b, eig_vec_cent_of_not_missing _ _ _ _ hmiss,
    sum_scores_eq_one _ nc b heig.2.2.1 hT⟩

/-- Witness for the amended C1, at the 1×1 matrix `[[2]]` with
`n_components = 1`, `largest = true`. -/
theorem sum_of_scores_eq_one_witness :
    (hasMissing (cov1 2) = false ∧ IsSymmetric (covVal (cov1 2)) ∧
      IsEighOutput (covVal (cov1 2)) (pairs1 2) ∧
      (eigValsSel (pairs1 2) 1 true).sum ≠ 0) ∧
    ∃ v, eig_vec_cent (fun _ => pairs1 2) (cov1 2) 1 true = some v ∧ ∑ j, v j = 1 := by
  have hmiss : hasMissing (cov1 2) = false := by decide
  have hsym : IsSymmetric (covVal (cov1 2)) := fun i j => rfl
  have hT : (eigValsSel (pairs1 2) 1 true).sum ≠ 0 := by
    rw [eigValsSel, sortedPairs]
    simp [pairs1, takeLast]
  exact ⟨⟨hmiss, hsym, isEigh_pairs1 2, hT⟩,
    sum_of_scores_eq_one _ _ 1 true hmiss hsym (isEigh_pairs1 2) le_rfl le_rfl hT⟩

/-- Counterexample to Claim C1 as stated: the 1×1 zero matrix is
symmetric with no missing entries and `n_components = 1 ∈ [1, N]`, its
eigendecomposition is valid, yet the returned vector does not sum to 1
(the selected eigenvalues sum to 0, so the final normalisation divides by
zero: the model returns 0 where the floating-point code returns NaN, and
in both cases the sum is not 1). -/
theorem sum_to_one_counterexample :
    hasMissing (cov1 0) = false ∧ IsSymmetric (covVal (cov1 0)) ∧
    IsEighOutput (covVal (cov1 0)) (pairs1 0) ∧ 1 ≤ (1:ℕ) ∧
    ∃ v, eig_vec_cent (fun _ => pairs1 0) (cov1 0) 1 true = some v ∧ ∑ j, v j ≠ 1 := by
  refine ⟨by decide, fun i j => rfl, isEigh_pairs1 0, le_rfl,
    scores (pairs1 0) 1 true, eig_vec_cent_of_not_missing _ _ _ _ (by decide), ?_⟩
  have hval : ∀ j, scores (pairs1 0) 1 true j = 0 := by
    intro j
    rw [scores, eigValsSel, eigVecsSel, sortedPairs]
    simp [pairs1, takeLast, colSum, Fin.sum_univ_one]
  rw [Fin.sum_univ_one, hval]
  norm_num

/-- Claim C4: `eig_vec_cent` sorts the eigenpairs in ascending order of
eigenvalue with the eigenvectors permuted identically (the sorted list is
a permutation of the eigh output with pairing preserved and its
eigenvalues ascending), and the (eigenvalue, eigenvector) pairs it then
computes with are exactly the last (`largest = true`) or first
`n_components` sorted pairs, with the absolute value applied to every
entry of each selected eigenvector. -/
theorem sort_select_abs_structure (pairs : EigPairs K n) (nc : ℕ) (b : Bool) :
    List.Sorted (· ≤ ·) ((sortedPairs pairs).map Prod.fst) ∧
    (sortedPairs pairs).Perm pairs ∧
    (eigValsSel pairs nc b).zip (eigVecsSel pairs nc b) =
      (selPairs pairs nc b).map (fun p => (p.1, fun j => |p.2 j|)) := by
  refine ⟨?_, ?_, ?_⟩
  · have hs := @List.sorted_mergeSort (K × Vec K n) (fun p q => decide (p.1 ≤ q.1))
      (fun u v w huv hvw => by
        simp only [decide_eq_true_eq] at huv hvw ⊢
        exact le_trans huv hvw)
      (fun u v => by
        simp only [Bool.or_eq_true, decide_eq_true_eq]
        exact le_total u.1 v.1)
      pairs
    rw [sortedPairs]
    exact List.pairwise_map.mpr (hs.imp fun h => of_decide_eq_true h)
  · rw [sortedPairs]
    exact List.mergeSort_perm pairs _
  · rw [eigValsSel_eq, eigVecsSel_eq, List.zip_map']

/-- Claim C6: on the 3×3 identity matrix (for which `np.linalg.eigh`
returns eigenvalues `[1, 1, 1]` with the standard basis as eigenvectors —
a valid decomposition, as the second conjunct records) with
`n_components = 3` and `largest = true`, the output is `[1/3, 1/3, 1/3]`. -/
theorem identity3_equal_split :
    IsSymmetric (covVal covId3) ∧ IsEighOutput (covVal covId3) idPairs3 ∧
    eig_vec_cent (fun _ => idPairs3) covId3 3 true = some (fun _ => 1/3) := by
  refine ⟨?_, ?_, ?_⟩
  · intro i j
    simp [covVal, covId3, eq_comm]
  · refine ⟨rfl, ?_, ?_, ?_⟩
    · intro p hp i
      simp only [idPairs3, List.mem_cons, List.mem_singleton, List.not_mem_nil,
        or_false] at hp
      rcases hp with hp | hp | hp <;> subst hp <;>
        fin_cases i <;>
        simp [covVal, covId3, e3, Fin.sum_univ_three, Fin.ext_iff]
    · intro p hp
      simp only [idPairs3, List.mem_cons, List.mem_singleton, List.not_mem_nil,
        or_false] at hp
      rcases hp with hp | hp | hp <;> subst hp <;>
        simp [dotP, e3, Fin.sum_univ_three, Fin.ext_iff]
    · intro u v huv
      have hu := u.isLt
      have hv := v.isLt
      simp only [idPairs3, List.length_cons, List.length_nil] at hu hv
      have huv' : u.val ≠ v.val := fun h => huv (Fin.ext h)
      interval_cases hu' : u.val <;> interval_cases hv' : v.val <;>
        first
        | (exact absurd rfl huv')
        | (fin_cases u <;> fin_cases v <;>
            simp_all [dotP, idPairs3, e3, Fin.sum_univ_three, Fin.ext_iff])
  · rw [eig_vec_cent_of_not_missing _ _ _ _ (by decide)]
    refine congrArg some (funext fun j => ?_)
    rw [scores, eigValsSel, eigVecsSel]
    rw [sortedPairs, List.mergeSort_of_sorted (by decide)]
    simp only [idPairs3, takeLast, List.map_cons, List.map_nil, if_pos, List.length_cons,
      List.length_nil, List.drop, List.zip_cons_cons, List.zip_nil_right, reduceIte]
    simp only [colSum, Fin.sum_univ_three]
    fin_cases j <;> simp [e3, Fin.ext_iff] <;> norm_num

theorem scores_mem_unit (pairs : EigPairs K n) (nc : ℕ) (b : Bool) (j : Fin n)
    (hnorm : ∀ p ∈ pairs, dotP p.2 p.2 = 1)
    (hpos : ∀ p ∈ pairs, 0 ≤ p.1) :
    0 ≤ scores pairs nc b j ∧ scores pairs nc b j ≤ 1 := by
  rw [scores_eq]
  have hsub := selPairs_subset pairs nc b
  have hS : ∀ p ∈ selPairs pairs nc b, (0:K) < ∑ i, |p.2 i| :=
    fun p hp => absSum_pos p.2 (hnorm p (hsub p hp))
  have hnum0 : 0 ≤ ((selPairs pairs nc b).map
      (fun p => p.1 * |p.2 j| / (∑ i, |p.2 i|))).sum := by
    apply List.sum_nonneg
    intro x hx
    obtain ⟨p, hp, rfl⟩ := List.mem_map.mp hx
    exact div_nonneg (mul_nonneg (hpos p (hsub p hp)) (abs_nonneg _))
      (le_of_lt (hS p hp))
  have hT0 : 0 ≤ ((selPairs pairs nc b).map Prod.fst).sum := by
    apply List.sum_nonneg
    intro x hx
    obtain ⟨p, hp, rfl⟩ := List.mem_map.mp hx
    exact hpos p (hsub p hp)
  have hNT : ((selPairs pairs nc b).map
      (fun p => p.1 * |p.2 j| / (∑ i, |p.2 i|))).sum
      ≤ ((selPairs pairs nc b).map Prod.fst).sum := by
    apply List.sum_le_sum
    intro p hp
    rw [div_le_iff (hS p hp)]
    calc p.1 * |p.2 j| ≤ p.1 * ∑ i, |p.2 i| :=
          mul_le_mul_of_nonneg_left
            (Finset.single_le_sum (fun i _ => abs_nonneg (p.2 i)) (Finset.mem_univ j))
            (hpos p (hsub p hp))
      _ = Prod.fst p * ∑ i, |p.2 i| := rfl
  constructor
  · exact div_nonneg hnum0 hT0
  · rcases eq_or_lt_of_le hT0 with h0 | hTpos
    · rw [← h0, div_zero]
      exact zero_le_one
    · rw [div_le_one hTpos]
      exact hNT

/-- Claim C3: for every symmetric positive-semidefinite matrix with no
missing entries and `1 ≤ n_components ≤ n` (so all eigenvalues used are
non-negative), every entry of the vector returned by `eig_vec_cent` lies
in the closed interval `[0, 1]`. -/
theorem entries_in_unit_interval
    (eigh : (Fin n → Fin n → K) → EigPairs K n)
    (cov : Fin n → Fin n → Option K) (nc : ℕ) (b : Bool)
    (hmiss : hasMissing cov = false)
    (hsym : IsSymmetric (covVal cov))
    (hpsd : IsPSD (covVal cov))
    (heig : IsEighOutput (covVal cov) (eigh (covVal cov)))
    (hnc1 : 1 ≤ nc) (hncn : nc ≤ n) :
    ∃ v, eig_vec_cent eigh cov nc b = some v ∧ ∀ j, 0 ≤ v j ∧ v j ≤ 1 :=
  ⟨scores (eigh (covVal cov)) nc b, eig_vec_cent_of_not_missing _ _ _ _ hmiss,
    fun j => scores_mem_unit _ nc b j heig.2.2.1 (eigenvalue_nonneg hpsd heig)⟩

/-- Witness for C3, at the positive-semidefinite 1×1 matrix `[[2]]`. -/
theorem entries_in_unit_interval_witness :
    (hasMissing (cov1 2) = false ∧ IsSymmetric (covVal (cov1 2)) ∧
      IsPSD (covVal (cov1 2)) ∧ IsEighOutput (covVal (cov1 2)) (pairs1 2) ∧
      (1:ℕ) ≤ 1) ∧
    ∃ v, eig_vec_cent (fun _ => pairs1 2) (cov1 2) 1 true = some v ∧
      ∀ j, 0 ≤ v j ∧ v j ≤ 1 := by
  have hmiss : hasMissing (cov1 2) = false := by decide
  have hsym : IsSymmetric (covVal (cov1 2)) := fun i j => rfl
  have hpsd : IsPSD (covVal (cov1 2)) := by
    intro x
    simp only [covVal, cov1, Option.getD_some, Fin.sum_univ_one]
    nlinarith [sq_nonneg (x 0)]
  exact ⟨⟨hmiss, hsym, hpsd, isEigh_pairs1 2, le_rfl⟩,
    entries_in_unit_interval _ _ 1 true hmiss hsym hpsd (isEigh_pairs1 2) le_rfl le_rfl⟩

theorem hasMissing_scaleCov (c : K) (cov : Fin n → Fin n → Option K) :
    hasMissing (scaleCov c cov) = hasMissing cov := by
  unfold hasMissing scaleCov
  rw [decide_eq_decide]
  have h : ∀ o : Option K, (o.map (fun x => c * x)).isNone = o.isNone := by
    intro o
    cases o <;> rfl
  simp only [h]

theorem sortedPairs_map (pairs : EigPairs K n) (f : K × Vec K n → K × Vec K n)
    (hf : ∀ p q : K × Vec K n, ((f p).1 ≤ (f q).1) ↔ (p.1 ≤ q.1)) :
    sortedPairs (pairs.map f) = (sortedPairs pairs).map f := by
  rw [sortedPairs, sortedPairs]
  exact (List.map_mergeSort (fun p _ q _ => by
    rw [decide_eq_decide]
    exact (hf p q).symm)).symm

theorem selPairs_map (pairs : EigPairs K n) (f : K × Vec K n → K × Vec K n)
    (hf : ∀ p q : K × Vec K n, ((f p).1 ≤ (f q).1) ↔ (p.1 ≤ q.1)) (nc : ℕ) (b : Bool) :
    selPairs (pairs.map f) nc b = (selPairs pairs nc b).map f := by
  unfold selPairs
  rw [sortedPairs_map pairs f hf]
  rcases b with _ | _
  · rw [← List.map_take]
    rfl
  · rw [takeLast_map]
    rfl

theorem scores_scale (pairs : EigPairs K n) (c : K) (hc : 0 < c) (nc : ℕ) (b : Bool) :
    scores (pairs.map (fun p => (c * p.1, p.2))) nc b = scores pairs nc b := by
  funext j
  rw [scores_eq, scores_eq,
    selPairs_map pairs (fun p => (c * p.1, p.2)) (fun p q => mul_le_mul_left hc) nc b,
    List.map_map, List.map_map]
  have h1 : ((selPairs pairs nc b).map
      ((fun p : K × Vec K n => p.1 * |p.2 j| / (∑ i, |p.2 i|)) ∘
        (fun p : K × Vec K n => (c * p.1, p.2)))).sum
      = c * ((selPairs pairs nc b).map
        (fun p => p.1 * |p.2 j| / (∑ i, |p.2 i|))).sum := by
    rw [← List.sum_map_mul_left]
    refine congrArg List.sum (List.map_congr_left fun p _ => ?_)
    simp only [Function.comp]
    rw [mul_assoc, mul_div_assoc]
  have h2 : ((selPairs pairs nc b).map
      (Prod.fst ∘ (fun p : K × Vec K n => (c * p.1, p.2)))).sum
      = c * ((selPairs pairs nc b).map Prod.fst).sum := by
    rw [← List.sum_map_mul_left]
    rfl
  rw [h1, h2, mul_div_mul_left _ _ (ne_of_gt hc)]

/-- Claim C5: for every symmetric matrix with no missing entries, every
positive scalar `c`, every `n_components` in `[1, n]` and every value of
`largest`, running `eig_vec_cent` on `c` times the matrix (whose
decomposition has the eigenvalues scaled by `c` and the eigenvectors
unchanged) returns the same vector as running it on the matrix itself:
the positive scaling cancels in the final normalisation. -/
theorem scaling_invariance
    (eigh eighS : (Fin n → Fin n → K) → EigPairs K n)
    (cov : Fin n → Fin n → Option K) (c : K) (nc : ℕ) (b : Bool)
    (hc : 0 < c)
    (hmiss : hasMissing cov = false)
    (hsym : IsSymmetric (covVal cov))
    (heig : IsEighOutput (covVal cov) (eigh (covVal cov)))
    (hnc1 : 1 ≤ nc) (hncn : nc ≤ n)
    (hS : eighS (covVal (scaleCov c cov)) =
      (eigh (covVal cov)).map (fun p => (c * p.1, p.2))) :
    eig_vec_cent eighS (scaleCov c cov) nc b = eig_vec_cent eigh cov nc b := by
  have hm : hasMissing (scaleCov c cov) = false := by rw [hasMissing_scaleCov, hmiss]
  rw [eig_vec_cent_of_not_missing _ _ _ _ hm,
    eig_vec_cent_of_not_missing _ _ _ _ hmiss, hS, scores_scale _ c hc]

/-- Witness for C5: scaling the 1×1 matrix `[[2]]` by `c = 3`. -/
theorem scaling_invariance_witness :
    ((0:ℚ) < 3 ∧ hasMissing (cov1 2) = false ∧ IsSymmetric (covVal (cov1 2)) ∧
      IsEighOutput (covVal (cov1 2)) (pairs1 2) ∧
      pairs1 6 = (pairs1 2).map (fun p => ((3:ℚ) * p.1, p.2))) ∧
    eig_vec_cent (fun _ => pairs1 6) (scaleCov 3 (cov1 2)) 1 true =
      eig_vec_cent (fun _ => pairs1 2) (cov1 2) 1 true := by
  have hc : (0:ℚ) < 3 := by norm_num
  have hmiss : hasMissing (cov1 2) = false := by decide
  have hsym : IsSymmetric (covVal (cov1 2)) := fun i j => rfl
  have hS : pairs1 6 = (pairs1 2).map (fun p => ((3:ℚ) * p.1, p.2)) := by
    simp only [pairs1, List.map_cons, List.map_nil, List.cons.injEq, and_true,
      Prod.mk.injEq]
    norm_num
  exact ⟨⟨hc, hmiss, hsym, isEigh_pairs1 2, hS⟩,
    scaling_invariance _ _ _ 3 1 true hc hmiss hsym (isEigh_pairs1 2) le_rfl le_rfl hS⟩

theorem hasMissing_permCov (σ : Equiv.Perm (Fin n)) (cov : Fin n → Fin n → Option K) :
    hasMissing (permCov σ cov) = hasMissing cov := by
  unfold hasMissing permCov
  rw [decide_eq_decide]
  constructor
  · rintro ⟨i, j, h⟩
    exact ⟨σ i, σ j, h⟩
  · rintro ⟨i, j, h⟩
    exact ⟨σ.symm i, σ.symm j, by simpa using h⟩

theorem scores_perm (pairs : EigPairs K n) (σ : Equiv.Perm (Fin n)) (nc : ℕ)
    (b : Bool) (j : Fin n) :
    scores (pairs.map (fun p => (p.1, fun i => p.2 (σ i)))) nc b j =
      scores pairs nc b (σ j) := by
  rw [scores_eq, scores_eq,
    selPairs_map pairs (fun p => (p.1, fun i => p.2 (σ i))) (fun p q => Iff.rfl) nc b,
    List.map_map, List.map_map]
  have hnum : (selPairs pairs nc b).map
      ((fun p : K × Vec K n => p.1 * |p.2 j| / (∑ i, |p.2 i|)) ∘
        (fun p : K × Vec K n => (p.1, fun i => p.2 (σ i))))
      = (selPairs pairs nc b).map (fun p => p.1 * |p.2 (σ j)| / (∑ i, |p.2 i|)) := by
    refine List.map_congr_left fun p _ => ?_
    simp only [Function.comp]
    rw [Equiv.sum_comp σ (fun i => |p.2 i|)]
  rw [hnum]
  rfl

/-- Claim C8: for every symmetric matrix with no missing entries and every
permutation of the asset identifiers, applying the permutation
simultaneously to rows and columns (whose decomposition has the same
eigenvalues and the correspondingly permuted eigenvectors) and running
`eig_vec_cent` with the same `n_components` and `largest` yields the same
per-asset scores, reattached to the relabelled identifiers. -/
theorem permutation_consistency
    (eigh eighP : (Fin n → Fin n → K) → EigPairs K n)
    (cov : Fin n → Fin n → Option K) (σ : Equiv.Perm (Fin n)) (nc : ℕ) (b : Bool)
    (hmiss : hasMissing cov = false)
    (hsym : IsSymmetric (covVal cov))
    (heig : IsEighOutput (covVal cov) (eigh (covVal cov)))
    (hP : eighP (covVal (permCov σ cov)) =
      (eigh (covVal cov)).map (fun p => (p.1, fun i => p.2 (σ i)))) :
    eig_vec_cent eighP (permCov σ cov) nc b =
      (eig_vec_cent eigh cov nc b).map (fun v => fun i => v (σ i)) := by
  have hm : hasMissing (permCov σ cov) = false := by rw [hasMissing_permCov, hmiss]
  rw [eig_vec_cent_of_not_missing _ _ _ _ hm,
    eig_vec_cent_of_not_missing _ _ _ _ hmiss, hP, Option.map_some']
  refine congrArg some (funext fun j => ?_)
  exact scores_perm _ σ nc b j

theorem takeLast_one_eq_getLast {α : Type} :
    ∀ (l : List α) (h : l ≠ []), takeLast 1 l = [l.getLast h]
  | [a], _ => rfl
  | a :: b :: t, _ => by
    have ih := takeLast_one_eq_getLast (b :: t) (List.cons_ne_nil b t)
    rw [List.getLast_cons (List.cons_ne_nil b t), ← ih]
    show List.drop ((a :: b :: t).length - 1) (a :: b :: t)
        = List.drop ((b :: t).length - 1) (b :: t)
    simp only [List.length_cons, Nat.add_sub_cancel]
    exact List.drop_succ_cons

theorem sorted_le_getLast {α : Type} {key : α → K} {l : List α}
    (hl : List.Pairwise (fun p q => key p ≤ key q) l) (hne : l ≠ []) :
    ∀ x ∈ l, key x ≤ key (l.getLast hne) := by
  induction l with
  | nil => exact absurd rfl hne
  | cons a t ih =>
    intro x hx
    cases t with
    | nil =>
      rcases List.mem_singleton.mp hx with rfl
      exact le_refl _
    | cons b t2 =>
      rw [List.getLast_cons (List.cons_ne_nil b t2)]
      rcases List.mem_cons.mp hx with rfl | hx2
      · exact (List.pairwise_cons.mp hl).1 _ (List.getLast_mem (List.cons_ne_nil b t2))
      · exact ih (List.pairwise_cons.mp hl).2 (List.cons_ne_nil b t2) x hx2

theorem sortedPairs_pairwise (pairs : EigPairs K n) :
    List.Pairwise (fun p q : K × Vec K n => p.1 ≤ q.1) (sortedPairs pairs) := by
  have hs := @List.sorted_mergeSort (K × Vec K n) (fun p q => decide (p.1 ≤ q.1))
    (fun u v w huv hvw => by
      simp only [decide_eq_true_eq] at huv hvw ⊢
      exact le_trans huv hvw)
    (fun u v => by
      simp only [Bool.or_eq_true, decide_eq_true_eq]
      exact le_total u.1 v.1)
    pairs
  rw [sortedPairs]
  exact hs.imp fun h => of_decide_eq_true h

theorem diag_eigenpair_structure (d : Fin n → K)
    (hdist : ∀ i j : Fin n, i ≠ j → d i ≠ d j)
    {pairs : EigPairs K n}
    (heig : IsEighOutput (fun i j => if i = j then d i else 0) pairs) :
    ∀ p ∈ pairs, ∃ i0 : Fin n,
      p.1 = d i0 ∧ |p.2 i0| = 1 ∧ ∀ j, j ≠ i0 → p.2 j = 0 := by
  intro p hp
  obtain ⟨i0, hi0⟩ : ∃ j, p.2 j ≠ 0 := by
    by_contra hall
    push_neg at hall
    have h1 := heig.2.2.1 p hp
    rw [dotP] at h1
    simp [hall] at h1
  have heq : ∀ i, d i * p.2 i = p.1 * p.2 i := by
    intro i
    have h2 := heig.2.1 p hp i
    simp only [] at h2
    rw [← h2, Finset.sum_eq_single i]
    · rw [if_pos rfl]
    · intro b _ hb
      rw [if_neg (fun h => hb h.symm), zero_mul]
    · intro h
      exact absurd (Finset.mem_univ i) h
  have hval : p.1 = d i0 := (mul_right_cancel₀ hi0 (heq i0)).symm
  have hsupp : ∀ j, j ≠ i0 → p.2 j = 0 := by
    intro j hj
    by_contra hjz
    have hdj : d j = p.1 := mul_right_cancel₀ hjz (heq j)
    rw [hval] at hdj
    exact hdist j i0 hj hdj
  refine ⟨i0, hval, ?_, hsupp⟩
  have h1 := heig.2.2.1 p hp
  rw [dotP, Finset.sum_eq_single i0] at h1
  · rcases mul_self_eq_one_iff.mp h1 with h | h <;> rw [h] <;> simp
  · intro b _ hb
    rw [hsupp b hb, mul_zero]
  · intro h
    exact absurd (Finset.mem_univ i0) h

/-- Claim C7: for every diagonal matrix with distinct positive diagonal
entries and no missing entries, `eig_vec_cent` with `n_components = 1`
and `largest = true` returns the vector whose entry for the asset `m`
with the largest diagonal entry is 1 and whose other entries are 0 (for
any valid symmetric eigendecomposition of the matrix: the eigenvectors
of a diagonal matrix with distinct diagonal are the standard basis
vectors up to sign, and the weighting is decisive). -/
theorem diag_top_component
    (eigh : (Fin n → Fin n → K) → EigPairs K n)
    (d : Fin n → K) (m : Fin n)
    (hdpos : ∀ i, 0 < d i)
    (hdist : ∀ i j : Fin n, i ≠ j → d i ≠ d j)
    (hmax : ∀ i, i ≠ m → d i < d m)
    (heig : IsEighOutput (covVal (diagCov d)) (eigh (covVal (diagCov d)))) :
    eig_vec_cent eigh (diagCov d) 1 true =
      some (fun j => if j = m then 1 else 0) := by
  set pairs := eigh (covVal (diagCov d)) with hpairs
  have heig' : IsEighOutput (fun i j => if i = j then d i else 0) pairs := heig
  have hstruct := diag_eigenpair_structure d hdist heig'
  -- some pair carries the eigenvalue d m
  have hmem_dm : ∃ q ∈ pairs, q.1 = d m := by
    have hchoice : ∀ a : Fin pairs.length, ∃ i0 : Fin n,
        (pairs.get a).1 = d i0 ∧ |(pairs.get a).2 i0| = 1 ∧
          ∀ j, j ≠ i0 → (pairs.get a).2 j = 0 :=
      fun a => hstruct (pairs.get a) (List.get_mem pairs a.1 a.2)
    have hφval : ∀ a, (pairs.get a).1 = d (hchoice a).choose :=
      fun a => (hchoice a).choose_spec.1
    have hφabs : ∀ a, |(pairs.get a).2 (hchoice a).choose| = 1 :=
      fun a => (hchoice a).choose_spec.2.1
    have hφsupp : ∀ a j, j ≠ (hchoice a).choose → (pairs.get a).2 j = 0 :=
      fun a => (hchoice a).choose_spec.2.2
    have hinj : Function.Injective (fun a => (hchoice a).choose) := by
      intro a b hab
      simp only [] at hab
      by_contra hne
      have horth := heig.2.2.2 a b hne
      rw [dotP, Finset.sum_eq_single (hchoice a).choose] at horth
      · have ha : (pairs.get a).2 (hchoice a).choose ≠ 0 := by
          intro h
          have := hφabs a
          rw [h, abs_zero] at this
          exact zero_ne_one this
        have hb : (pairs.get b).2 (hchoice a).choose ≠ 0 := by
          intro h
          have := hφabs b
          rw [← hab, h, abs_zero] at this
          exact zero_ne_one this
        exact mul_ne_zero ha hb horth
      · intro c _ hc
        rw [hφsupp a c hc, zero_mul]
      · intro h
        exact absurd (Finset.mem_univ _) h
    have hcard : pairs.length = n := heig.1
    have hψinj : Function.Injective
        (fun a : Fin n => (hchoice (Fin.cast hcard.symm a)).choose) := by
      intro a b hab
      have := hinj hab
      have h2 := congrArg (Fin.cast hcard) this
      simpa using h2
    obtain ⟨a, ha⟩ := Finite.injective_iff_surjective.mp hψinj m
    simp only [] at ha
    refine ⟨pairs.get (Fin.cast hcard.symm a),
      List.get_mem pairs _ _, ?_⟩
    rw [hφval (Fin.cast hcard.symm a), ha]
  -- the selected pair is the last of the sorted list, with the max eigenvalue
  have hsp := sortedPairs_pairwise pairs
  have hn : 0 < n := m.pos
  have hlen : (sortedPairs pairs).length = n := by
    rw [sortedPairs, List.length_mergeSort, heig.1]
  have hne : sortedPairs pairs ≠ [] := List.length_pos.mp (by rw [hlen]; exact hn)
  set plast := (sortedPairs pairs).getLast hne with hplast
  have hsel : selPairs pairs 1 true = [plast] := by
    unfold selPairs
    rw [if_pos rfl]
    exact takeLast_one_eq_getLast _ hne
  have hplast_mem : plast ∈ pairs := by
    have hm1 : plast ∈ sortedPairs pairs := List.getLast_mem hne
    rw [sortedPairs] at hm1
    exact List.mem_mergeSort.mp hm1
  have hle : ∀ x ∈ pairs, x.1 ≤ plast.1 := by
    intro x hx
    have hx2 : x ∈ sortedPairs pairs := by
      rw [sortedPairs, List.mem_mergeSort]
      exact hx
    exact sorted_le_getLast hsp hne x hx2
  obtain ⟨q, hq_mem, hq_val⟩ := hmem_dm
  have hplast_le : plast.1 ≤ d m := by
    obtain ⟨i0, hv, _, _⟩ := hstruct plast hplast_mem
    rw [hv]
    rcases eq_or_ne i0 m with rfl | hne2
    · exact le_refl _
    · exact le_of_lt (hmax i0 hne2)
  have hplast_val : plast.1 = d m := le_antisymm hplast_le (hq_val ▸ hle q hq_mem)
  obtain ⟨i0, hv, habs, hsupp⟩ := hstruct plast hplast_mem
  have hi0m : i0 = m := by
    by_contra hne2
    exact hdist i0 m hne2 (by rw [← hv, hplast_val])
  rw [hi0m] at habs hsupp
  -- evaluate the score vector
  have hmiss : hasMissing (diagCov d) = false := by
    simp [hasMissing, diagCov]
  rw [eig_vec_cent_of_not_missing _ _ _ _ hmiss]
  refine congrArg some (funext fun j => ?_)
  rw [scores_eq, hsel]
  simp only [List.map_cons, List.map_nil, List.sum_cons, List.sum_nil, add_zero]
  have habs_sum : ∑ i, |plast.2 i| = 1 := by
    rw [Finset.sum_eq_single m]
    · exact habs
    · intro b _ hb
      rw [hsupp b hb, abs_zero]
    · intro h
      exact absurd (Finset.mem_univ _) h
  rw [habs_sum, div_one, hplast_val]
  rcases eq_or_ne j m with rfl | hj
  · rw [if_pos rfl, habs, mul_one, div_self (ne_of_gt (hdpos j))]
  · rw [if_neg hj, hsupp j hj, abs_zero, mul_zero, zero_div]

theorem isEigh_diagPairs2 : IsEighOutput (covVal (diagCov d2)) diagPairs2 := by
  refine ⟨rfl, ?_, ?_, ?_⟩
  · intro p hp i
    simp only [diagPairs2, List.mem_cons, List.mem_singleton, List.not_mem_nil,
      or_false] at hp
    rcases hp with hp | hp <;> subst hp <;>
      fin_cases i <;>
      simp [covVal, diagCov, d2, e2, Fin.sum_univ_two, Fin.ext_iff]
  · intro p hp
    simp only [diagPairs2, List.mem_cons, List.mem_singleton, List.not_mem_nil,
      or_false] at hp
    rcases hp with hp | hp <;> subst hp <;>
      simp [dotP, e2, Fin.sum_univ_two, Fin.ext_iff]
  · intro u v huv
    have hu := u.isLt
    have hv := v.isLt
    simp only [diagPairs2, List.length_cons, List.length_nil] at hu hv
    have huv' : u.val ≠ v.val := fun h => huv (Fin.ext h)
    interval_cases hu' : u.val <;> interval_cases hv' : v.val <;>
      first
      | (exact absurd rfl huv')
      | (fin_cases u <;> fin_cases v <;>
          simp_all [dotP, diagPairs2, e2, Fin.sum_univ_two, Fin.ext_iff])

/-- Witness for C7, at the 2×2 matrix `diag(1, 2)` whose largest diagonal
entry sits at index 1. -/
theorem diag_top_component_witness :
    ((∀ i, 0 < d2 i) ∧ (∀ i j : Fin 2, i ≠ j → d2 i ≠ d2 j) ∧
      (∀ i : Fin 2, i ≠ 1 → d2 i < d2 1) ∧
      IsEighOutput (covVal (diagCov d2)) diagPairs2) ∧
    eig_vec_cent (fun _ => diagPairs2) (diagCov d2) 1 true =
      some (fun j => if j = 1 then 1 else 0) := by
  have hdpos : ∀ i, 0 < d2 i := by decide
  have hdist : ∀ i j : Fin 2, i ≠ j → d2 i ≠ d2 j := by decide
  have hmax : ∀ i : Fin 2, i ≠ 1 → d2 i < d2 1 := by decide
  exact ⟨⟨hdpos, hdist, hmax, isEigh_diagPairs2⟩,
    diag_top_component _ d2 1 hdpos hdist hmax isEigh_diagPairs2⟩

/-- Witness for C8: swapping the two assets of `diag(1, 2)`. -/
theorem permutation_consistency_witness :
    (hasMissing (diagCov d2) = false ∧ IsSymmetric (covVal (diagCov d2)) ∧
      IsEighOutput (covVal (diagCov d2)) diagPairs2) ∧
    eig_vec_cent
        (fun _ => diagPairs2.map (fun p => (p.1, fun i => p.2 (Equiv.swap 0 1 i))))
        (permCov (Equiv.swap 0 1) (diagCov d2)) 2 false =
      (eig_vec_cent (fun _ => diagPairs2) (diagCov d2) 2 false).map
        (fun v => fun i => v (Equiv.swap 0 1 i)) := by
  have hmiss : hasMissing (diagCov d2) = false := by decide
  have hsym : IsSymmetric (covVal (diagCov d2)) := by
    intro i j
    fin_cases i <;> fin_cases j <;> rfl
  exact ⟨⟨hmiss, hsym, isEigh_diagPairs2⟩,
    permutation_consistency _ _ _ (Equiv.swap 0 1) 2 false hmiss hsym
      isEigh_diagPairs2 rfl⟩

end Centrality
